import Mathlib

/-!
Verification of the core logic of the vibed-santa Secret Santa application
(`app.py`): the constrained random matching algorithm
(`initialize_assignments`), the read-or-create persistence layer
(`get_or_create_assignments`), the wish-list store (`get_wish_list`,
`save_wish_list`), and the startup reconciliation
(`initialize_all_families`).

Modelling conventions:
- Python dicts are modelled as association lists built with Python
  insertion semantics (`dictInsert`: updating an existing key keeps its
  position, a new key is appended), which matches insertion-ordered
  Python dicts.
- `random.shuffle` is modelled by an oracle giving the contents of the
  shuffled list at each attempt; the hypothesis that each oracle output
  is a permutation of the participant list captures exactly the
  behaviours the real shuffle can produce.
- The TinyDB store is a `DB` structure: an association list of
  assignment tables keyed by table name (the code only ever creates
  assignment tables named `"assignments_" ++ family_id`) plus the
  `wishes` table as an association list keyed by username.  TinyDB
  `table(...).all()` on an absent table gives `[]`; a table only
  appears in storage once a record is inserted.
-/

/-- Python dict insertion semantics: assigning to an existing key updates
its value in place (keeping its position), assigning a fresh key appends
it at the end. -/
def dictInsert {β : Type} (d : List (String × β)) (k : String) (v : β) :
    List (String × β) :=
  match d with
  | [] => [(k, v)]
  | (k1, v1) :: rest =>
    if k1 = k then (k1, v) :: rest else (k1, v1) :: dictInsert rest k v

/-- The Python dict built from a list of key-value pairs, left to right
(as `dict(zip(...))` and dict comprehensions do). -/
def dictOfList {β : Type} (l : List (String × β)) : List (String × β) :=
  l.foldl (fun d p => dictInsert d p.1 p.2) []

/-- Python `exclusions.get(giver, [])`: look a key up in an association
list, defaulting to the empty list. -/
def exclGet (ex : List (String × List String)) (g : String) : List String :=
  ((ex.find? (fun p => p.1 = g)).map (fun p => p.2)).getD []

/-- The validity check of the shuffle loop in `initialize_assignments`
(src/app.py lines 140-153): every positionally paired giver/receiver must
satisfy `giver != receiver` and `receiver not in exclusions.get(giver, [])`.
The Python loop breaks at the first violation; `List.all` is its
result. -/
def checkValid (givers receivers : List String)
    (ex : List (String × List String)) : Bool :=
  (givers.zip receivers).all
    (fun p => !(p.1 == p.2) && !((exclGet ex p.1).contains p.2))

/-- The error message raised by `initialize_assignments` when the attempt
bound is exhausted (src/app.py lines 155-158). -/
def errMsg (maxAttempts : Nat) : String :=
  "Could not generate valid assignments after " ++ toString maxAttempts ++
    " attempts. Check if constraints are too restrictive."

/-- The shuffle-and-check loop of `initialize_assignments` (src/app.py
lines 132-158).  `oracle i` is the contents of the `receivers` list after
the shuffle of attempt `i`; the loop runs while no valid assignment was
found and fewer than 1000 attempts were made, and the attempt counter is
incremented each iteration.  Returns the result together with the final
value of `attempts`. -/
def initLoop (givers : List String) (ex : List (String × List String))
    (oracle : Nat → List String) :
    Nat → Nat → (Except String (List (String × String))) × Nat
  | 0, attempts => (.error (errMsg 1000), attempts)
  | fuel + 1, attempts =>
    let receivers := oracle attempts
    if checkValid givers receivers ex then
      (.ok (dictOfList (givers.zip receivers)), attempts + 1)
    else
      initLoop givers ex oracle fuel (attempts + 1)

/-- `initialize_assignments` (src/app.py lines 117-161): `givers` and
`receivers` both start as copies of `participants`; the receivers list is
reshuffled until the check passes or 1000 attempts are exhausted, in which
case a `ValueError` (modelled as `.error`) is raised; on success the
Python dict `dict(zip(givers, receivers))` is returned. -/
def initialize_assignments (participants : List String)
    (ex : List (String × List String)) (oracle : Nat → List String) :
    Except String (List (String × String)) :=
  (initLoop participants ex oracle 1000 0).1

/-- The value of the `attempts` counter when `initialize_assignments`
finishes (used to state the attempt bound). -/
def initialize_assignments_attempts (participants : List String)
    (ex : List (String × List String)) (oracle : Nat → List String) : Nat :=
  (initLoop participants ex oracle 1000 0).2

/-- Generic association-list lookup (first record whose key matches), the
model of a TinyDB `get`/first-match query and of table lookup in
storage. -/
def alistFind {γ : Type} (a : List (String × γ)) (k : String) : Option γ :=
  (a.find? (fun p => p.1 = k)).map (fun p => p.2)

/-- A participant as configured: only the fields that flow into the
matching and persistence logic (`username`, `exclude`); display name and
password only feed the UI and authentication. -/
structure Participant where
  username : String
  exclude : List String

/-- A family (group) as configured: only the fields the core logic reads
(`id`, `participants`); name, budget and currency only feed the UI. -/
structure Family where
  id : String
  participants : List Participant

/-- The TinyDB store: assignment tables keyed by table name (each holding
`{giver, receiver}` records in insertion order) and the `wishes` table
(holding `{username, items}` records in insertion order).  The wishes
table is kept apart because no code path ever creates an assignment table
named `"wishes"` (all assignment table names start with
`"assignments_"`), and the wish-list code only ever touches the table
named `"wishes"`. -/
structure DB where
  assign : List (String × List (String × String))
  wishes : List (String × List String)

/-- Table name used for the assignments of a family
(`f"assignments_{family_id}"`). -/
def tableName (familyId : String) : String := "assignments_" ++ familyId

/-- `assignments_table.all()`: all records of a table, `[]` when the
table does not exist in storage. -/
def tableGet (db : DB) (name : String) : List (String × String) :=
  (alistFind db.assign name).getD []

/-- `assignments_table.insert({...})`: append one record to a table,
creating the table in storage on first insert. -/
def tableInsertRec (db : DB) (name : String) (rec : String × String) : DB :=
  if (alistFind db.assign name).isSome then
    { db with assign :=
        db.assign.map (fun p => if p.1 = name then (p.1, p.2 ++ [rec]) else p) }
  else
    { db with assign := db.assign ++ [(name, [rec])] }

/-- The exclusion map built by `get_or_create_assignments` (src/app.py
lines 193-200): for each participant with a nonempty `exclude` list,
`exclusions[username] = excluded`. -/
def buildExclusions (participants : List Participant) :
    List (String × List String) :=
  participants.foldl
    (fun ex p => if p.exclude.isEmpty then ex else dictInsert ex p.username p.exclude)
    []

/-- `get_or_create_assignments` (src/app.py lines 164-210): if any
records exist in the family assignment table, return the dict built from
them and touch nothing; otherwise run `initialize_assignments` on the
current participant usernames and exclusion map, insert every pair of the
resulting dict as a record, and return the dict.  A raised `ValueError`
propagates (modelled as `.error`) before any record is written. -/
def get_or_create_assignments (family : Family) (oracle : Nat → List String)
    (db : DB) : (Except String (List (String × String))) × DB :=
  let existing := tableGet db (tableName family.id)
  if existing.isEmpty then
    let usernames := family.participants.map (fun p => p.username)
    let exclusions := buildExclusions family.participants
    match initialize_assignments usernames exclusions oracle with
    | .error e => (.error e, db)
    | .ok assignments =>
      (.ok assignments,
        assignments.foldl (fun d rec => tableInsertRec d (tableName family.id) rec) db)
  else
    (.ok (dictOfList existing), db)

/-- `get_wish_list` (src/app.py lines 213-219): the `items` of the first
`wishes` record whose `username` matches, `[]` when there is none. -/
def get_wish_list (username : String) (db : DB) : List String :=
  (alistFind db.wishes username).getD []

/-- `save_wish_list` (src/app.py lines 222-231): update the `items` of
every matching `wishes` record when one exists, otherwise insert a new
record. -/
def save_wish_list (username : String) (items : List String) (db : DB) : DB :=
  if (alistFind db.wishes username).isSome then
    { db with wishes :=
        db.wishes.map (fun r => if r.1 = username then (r.1, items) else r) }
  else
    { db with wishes := db.wishes ++ [(username, items)] }

/-- Leading-segment test on character lists: `leadsWith pat l` is true iff
`pat` occurs at the very start of `l` (helper for the Python string
methods used by the reconciliation code). -/
def leadsWith : List Char → List Char → Bool
  | [], _ => true
  | _ :: _, [] => false
  | a :: as, b :: bs => a == b && leadsWith as bs

/-- Python `str.startswith`. -/
def pyStartsWith (s pat : String) : Bool := leadsWith pat.data s.data

/-- Worker for Python `str.replace`: replace every non-overlapping
occurrence of `old` in the input, scanning left to right.  `fuel` bounds
the recursion and is instantiated with the length of the input, which
suffices because every step consumes at least one character. -/
def replaceAllAux (old new : List Char) : Nat → List Char → List Char
  | _, [] => []
  | 0, l => l
  | fuel + 1, c :: rest =>
    if leadsWith old (c :: rest) then
      match old with
      | [] => c :: replaceAllAux old new fuel rest
      | _ :: os => new ++ replaceAllAux old new fuel (rest.drop os.length)
    else c :: replaceAllAux old new fuel rest

/-- Python `str.replace(old, new)` for nonempty `old` (the code only uses
`old = "assignments_"`): every non-overlapping occurrence is replaced,
left to right. -/
def pyReplace (s old new : String) : String :=
  ⟨replaceAllAux old.data new.data s.data.length s.data⟩

/-- TinyDB `db.drop_table(name)`: remove the table from storage; silently
a no-op when the table does not exist (storage keys are unique, so
removing every entry with that name equals removing the dict key). -/
def dropTable (db : DB) (name : String) : DB :=
  { db with assign := db.assign.filter (fun p => p.1 ≠ name) }

/-- The id computation of the reconciliation phase of
`initialize_all_families` (src/app.py lines 259-272): collect the storage
table names starting with `"assignments_"`, strip that substring
everywhere in the name (Python `t.replace("assignments_", "")` replaces
every occurrence) to recover family ids, and keep the ids not in the
configured set.  Python iterates a set difference; the model iterates the
corresponding list, which reaches the same store since dropping a table
is idempotent and order-independent. -/
def staleFamilyIds (configIds : List String) (db : DB) : List String :=
  (((db.assign.map (fun p => p.1)).filter (fun t => pyStartsWith t "assignments_")).map
    (fun t => pyReplace t "assignments_" "")).filter (fun i => !(configIds.contains i))

/-- The table-removal phase of `initialize_all_families` (src/app.py
lines 274-287): drop the table `f"assignments_{family_id}"` for every
stale family id. -/
def reconcile_families (configIds : List String) (db : DB) : DB :=
  (staleFamilyIds configIds db).foldl (fun d i => dropTable d (tableName i)) db

/-- The per-family initialization loop of `initialize_all_families`
(src/app.py lines 289-305): call `get_or_create_assignments` for every
configured family in order; a raised error is caught, logged and the loop
continues with the next family, keeping whatever store state the failed
call left.  `oracles` supplies the shuffle oracle each family sees. -/
def init_families_loop (oracles : String → Nat → List String)
    (fams : List Family) (db : DB) : DB :=
  fams.foldl (fun d fam => (get_or_create_assignments fam (oracles fam.id) d).2) db

/-- `initialize_all_families` (src/app.py lines 251-305): reconcile the
persisted tables against the configured family ids, then initialize every
configured family. -/
def initialize_all_families (oracles : String → Nat → List String)
    (fams : List Family) (db : DB) : DB :=
  init_families_loop oracles fams
    (reconcile_families (fams.map (fun f => f.id)) db)

/-- A mutable heap of Python list objects, for the aliasing claim about
`initialize_assignments`: references are numbers, each holding the
current contents of one list object. -/
abbrev Heap := List (Nat × List String)

/-- Contents of the list object behind a reference. -/
def heapGet (h : Heap) (r : Nat) : List String :=
  ((h.find? (fun p => p.1 = r)).map (fun p => p.2)).getD []

/-- In-place overwrite of the list object behind a reference. -/
def heapSet (h : Heap) (r : Nat) (v : List String) : Heap :=
  h.map (fun p => if p.1 = r then (p.1, v) else p)

/-- A reference unused by the heap (strictly larger than every live
reference). -/
def heapFresh (h : Heap) : Nat := (h.map (fun p => p.1)).foldr max 0 + 1

/-- `list.copy()`: allocate a fresh list object with the given
contents. -/
def heapAlloc (h : Heap) (v : List String) : Nat × Heap :=
  (heapFresh h, h ++ [(heapFresh h, v)])

/-- The shuffle-and-check loop of `initialize_assignments`, at the heap
level: `random.shuffle(receivers)` mutates the receivers object in place
(the oracle maps its current contents to its shuffled contents), and the
check reads the givers and receivers objects.  Both the success and the
error exit return the heap as it stands. -/
def initLoopHeap (gRef rRef : Nat) (ex : List (String × List String))
    (oracle : Nat → List String → List String) :
    Nat → Nat → Heap → (Except String (List (String × String))) × Heap
  | 0, _, h => (.error (errMsg 1000), h)
  | fuel + 1, attempts, h =>
    let h1 := heapSet h rRef (oracle attempts (heapGet h rRef))
    if checkValid (heapGet h1 gRef) (heapGet h1 rRef) ex then
      (.ok (dictOfList ((heapGet h1 gRef).zip (heapGet h1 rRef))), h1)
    else
      initLoopHeap gRef rRef ex oracle fuel (attempts + 1) h1

/-- `initialize_assignments` at the heap level (src/app.py lines
117-161): the caller passes a reference to its participants list; the
function allocates `givers = participants.copy()` and
`receivers = participants.copy()` (lines 129-130) and only ever shuffles
the receivers object. -/
def initialize_assignments_heap (pRef : Nat)
    (ex : List (String × List String))
    (oracle : Nat → List String → List String) (h : Heap) :
    (Except String (List (String × String))) × Heap :=
  let g := heapAlloc h (heapGet h pRef)
  let r := heapAlloc g.2 (heapGet g.2 pRef)
  initLoopHeap g.1 r.1 ex oracle 1000 0 r.2

theorem initLoop_ok_exists (g : List String) (ex : List (String × List String))
    (o : Nat → List String) :
    ∀ (fuel k : Nat) (m : List (String × String)),
      (initLoop g ex o fuel k).1 = .ok m →
      ∃ i, checkValid g (o i) ex = true ∧ m = dictOfList (g.zip (o i)) := by
  intro fuel
  induction fuel with
  | zero => intro k m h; simp [initLoop] at h
  | succ n ih =>
    intro k m h
    rw [initLoop] at h
    by_cases hc : checkValid g (o k) ex = true
    · simp only [hc, if_true] at h
      exact ⟨k, hc, by simpa using h.symm⟩
    · simp only [hc, if_false] at h
      exact ih (k + 1) m h

theorem initLoop_err_msg (g : List String) (ex : List (String × List String))
    (o : Nat → List String) :
    ∀ (fuel k : Nat) (e : String),
      (initLoop g ex o fuel k).1 = .error e → e = errMsg 1000 := by
  intro fuel
  induction fuel with
  | zero => intro k e h; simpa [initLoop] using h.symm
  | succ n ih =>
    intro k e h
    rw [initLoop] at h
    by_cases hc : checkValid g (o k) ex = true
    · simp [hc] at h
    · simp only [hc, if_false] at h
      exact ih (k + 1) e h

theorem initLoop_attempt_bound (g : List String) (ex : List (String × List String))
    (o : Nat → List String) :
    ∀ (fuel k : Nat), (initLoop g ex o fuel k).2 ≤ k + fuel := by
  intro fuel
  induction fuel with
  | zero => intro k; simp [initLoop]
  | succ n ih =>
    intro k
    rw [initLoop]
    by_cases hc : checkValid g (o k) ex = true
    · simp [hc]
    · simp only [hc, if_false]
      calc (initLoop g ex o n (k + 1)).2 ≤ (k + 1) + n := ih (k + 1)
        _ = k + (n + 1) := by omega

theorem initLoop_all_invalid (g : List String) (ex : List (String × List String))
    (o : Nat → List String) (hinv : ∀ i, checkValid g (o i) ex = false) :
    ∀ (fuel k : Nat), (initLoop g ex o fuel k).1 = .error (errMsg 1000) := by
  intro fuel
  induction fuel with
  | zero => intro k; simp [initLoop]
  | succ n ih =>
    intro k
    rw [initLoop]
    simp only [hinv k, if_false]
    exact ih (k + 1)

theorem initLoop_nil_ok (ex : List (String × List String))
    (o : Nat → List String) (fuel k : Nat) :
    (initLoop [] ex o (fuel + 1) k).1 = .ok [] := by
  rw [initLoop]
  simp [checkValid, dictOfList]

theorem initialize_assignments_nil (ex : List (String × List String))
    (o : Nat → List String) :
    initialize_assignments [] ex o = .ok [] := by
  show (initLoop [] ex o (999 + 1) 0).1 = .ok []
  exact initLoop_nil_ok ex o 999 0

theorem dictInsert_ne_nil {β : Type} (d : List (String × β)) (k : String) (v : β) :
    dictInsert d k v ≠ [] := by
  cases d with
  | nil => simp [dictInsert]
  | cons p rest =>
    rw [dictInsert]
    by_cases h : p.1 = k <;> simp [h]

theorem dictInsert_of_not_mem {β : Type} (d : List (String × β)) (k : String)
    (v : β) (h : k ∉ d.map Prod.fst) : dictInsert d k v = d ++ [(k, v)] := by
  induction d with
  | nil => rfl
  | cons p rest ih =>
    obtain ⟨k1, v1⟩ := p
    simp only [List.map_cons, List.mem_cons] at h
    push_neg at h
    rw [dictInsert, if_neg (Ne.symm h.1), ih h.2]
    rfl

theorem foldl_dictInsert_eq_append {β : Type} (l : List (String × β)) :
    ∀ acc : List (String × β), ((acc ++ l).map Prod.fst).Nodup →
      l.foldl (fun d p => dictInsert d p.1 p.2) acc = acc ++ l := by
  induction l with
  | nil => intro acc _; simp
  | cons p rest ih =>
    intro acc h
    obtain ⟨k, v⟩ := p
    have h' : (acc.map Prod.fst ++ (k :: rest.map Prod.fst)).Nodup := by
      simpa using h
    have hk : k ∉ acc.map Prod.fst := by
      intro hmem
      exact List.disjoint_of_nodup_append h' hmem (by simp)
    have hstep : dictInsert acc k v = acc ++ [(k, v)] :=
      dictInsert_of_not_mem acc k v hk
    show rest.foldl (fun d p => dictInsert d p.1 p.2) (dictInsert acc k v)
        = acc ++ (k, v) :: rest
    rw [hstep, ih (acc ++ [(k, v)]) (by simpa using h)]
    simp

theorem dictOfList_eq_self {β : Type} (l : List (String × β))
    (h : (l.map Prod.fst).Nodup) : dictOfList l = l := by
  have := foldl_dictInsert_eq_append l [] (by simpa using h)
  simpa [dictOfList] using this

theorem dictInsert_keys {β : Type} (d : List (String × β)) (k : String) (v : β) :
    (dictInsert d k v).map Prod.fst =
      if k ∈ d.map Prod.fst then d.map Prod.fst else d.map Prod.fst ++ [k] := by
  induction d with
  | nil => simp [dictInsert]
  | cons p rest ih =>
    obtain ⟨k1, v1⟩ := p
    rw [dictInsert]
    by_cases h1 : k1 = k
    · subst h1
      simp
    · simp only [if_neg h1, List.map_cons, ih]
      by_cases h2 : k ∈ rest.map Prod.fst
      · simp [h2, Ne.symm h1]
      · simp [h2, Ne.symm h1]

theorem dictInsert_keys_nodup {β : Type} (d : List (String × β)) (k : String)
    (v : β) (h : (d.map Prod.fst).Nodup) :
    ((dictInsert d k v).map Prod.fst).Nodup := by
  rw [dictInsert_keys]
  by_cases hm : k ∈ d.map Prod.fst
  · simpa [hm] using h
  · simp [hm, List.nodup_append, h]

theorem foldl_dictInsert_keys_nodup {β : Type} (l : List (String × β)) :
    ∀ acc : List (String × β), (acc.map Prod.fst).Nodup →
      ((l.foldl (fun d p => dictInsert d p.1 p.2) acc).map Prod.fst).Nodup := by
  induction l with
  | nil => intro acc h; simpa using h
  | cons p rest ih =>
    intro acc h
    exact ih (dictInsert acc p.1 p.2) (dictInsert_keys_nodup acc p.1 p.2 h)

theorem dictOfList_keys_nodup {β : Type} (l : List (String × β)) :
    ((dictOfList l).map Prod.fst).Nodup :=
  foldl_dictInsert_keys_nodup l [] (by simp)

theorem foldl_dictInsert_ne_nil {β : Type} (l : List (String × β)) :
    ∀ acc : List (String × β), acc ≠ [] →
      l.foldl (fun d p => dictInsert d p.1 p.2) acc ≠ [] := by
  induction l with
  | nil => intro acc h; simpa using h
  | cons p rest ih =>
    intro acc _
    exact ih (dictInsert acc p.1 p.2) (dictInsert_ne_nil acc p.1 p.2)

theorem dictOfList_ne_nil {β : Type} (l : List (String × β)) (h : l ≠ []) :
    dictOfList l ≠ [] := by
  match l, h with
  | p :: rest, _ =>
    show rest.foldl (fun d p => dictInsert d p.1 p.2) (dictInsert [] p.1 p.2) ≠ []
    exact foldl_dictInsert_ne_nil rest (dictInsert [] p.1 p.2)
      (dictInsert_ne_nil [] p.1 p.2)

theorem checkValid_mem (g r : List String) (ex : List (String × List String))
    (a b : String) (h : checkValid g r ex = true) (hm : (a, b) ∈ g.zip r) :
    a ≠ b ∧ b ∉ exclGet ex a := by
  have := List.all_eq_true.mp h _ hm
  simp only [Bool.and_eq_true, Bool.not_eq_true'] at this
  constructor
  · intro he
    rw [he] at this
    simp at this
  · intro he
    have hc : (exclGet ex a).contains b = true := List.elem_eq_true_of_mem he
    rw [hc] at this
    simp at this

/-- C1: for every list of distinct participant usernames and every
exclusion map, if `initialize_assignments` returns a mapping (each shuffle
producing some permutation of the participants), that mapping is a
bijection from the participants to the participants: its keys are exactly
the participants, its values are a permutation of the participants, and no
giver is mapped to themselves or to a receiver in their exclusion list. -/
theorem initialize_assignments_valid_bijection
    (participants : List String) (ex : List (String × List String))
    (oracle : Nat → List String)
    (hnd : participants.Nodup)
    (hperm : ∀ k, (oracle k).Perm participants)
    (m : List (String × String))
    (hres : initialize_assignments participants ex oracle = .ok m) :
    m.map Prod.fst = participants ∧
    (m.map Prod.snd).Perm participants ∧
    ∀ p ∈ m, p.1 ≠ p.2 ∧ p.2 ∉ exclGet ex p.1 := by
  obtain ⟨i, hc, hm⟩ := initLoop_ok_exists participants ex oracle 1000 0 m hres
  have hlen : (oracle i).length = participants.length := (hperm i).length_eq
  have hfst : (participants.zip (oracle i)).map Prod.fst = participants :=
    List.map_fst_zip _ _ (le_of_eq hlen.symm)
  have hsnd : (participants.zip (oracle i)).map Prod.snd = oracle i :=
    List.map_snd_zip _ _ (le_of_eq hlen)
  have hkeys : ((participants.zip (oracle i)).map Prod.fst).Nodup := by
    rw [hfst]; exact hnd
  have hd : dictOfList (participants.zip (oracle i)) = participants.zip (oracle i) :=
    dictOfList_eq_self _ hkeys
  rw [hd] at hm
  subst hm
  refine ⟨hfst, ?_, ?_⟩
  · rw [hsnd]; exact hperm i
  · intro p hp
    obtain ⟨a, b⟩ := p
    exact checkValid_mem participants (oracle i) ex a b hc hp

/-- Witness for C1 at participants `["A", "B"]`, no exclusions, and the
shuffle always producing `["B", "A"]`. -/
theorem initialize_assignments_valid_bijection_witness :
    ([("A", "B"), ("B", "A")] : List (String × String)).map Prod.fst = ["A", "B"] ∧
    (([("A", "B"), ("B", "A")] : List (String × String)).map Prod.snd).Perm ["A", "B"] ∧
    ∀ p ∈ ([("A", "B"), ("B", "A")] : List (String × String)),
      p.1 ≠ p.2 ∧ p.2 ∉ exclGet [] p.1 := by
  have hp : (["B", "A"] : List String).Perm ["A", "B"] := by decide
  exact initialize_assignments_valid_bijection ["A", "B"] [] (fun _ => ["B", "A"])
    (by decide) (fun _ => hp) [("A", "B"), ("B", "A")] rfl

/-- C2 counterexample: for the empty participant list (with the empty
exclusion map and the shuffle of the empty list producing the empty
list, which is what `random.shuffle` does there), `initialize_assignments`
does not raise: it returns the degenerate empty mapping, because the
validity check passes vacuously on the first attempt. -/
theorem initialize_assignments_empty_counterexample :
    initialize_assignments [] [] (fun _ => []) = .ok [] := rfl

/-- C2 amended: for every participant list of size 1 (each shuffle
producing a permutation of it), `initialize_assignments` fails with the
attempts-exhausted error and never returns a mapping; for the empty
participant list, however, it returns the degenerate empty mapping on the
first attempt instead of failing. -/
theorem initialize_assignments_small_groups (x : String)
    (ex : List (String × List String)) (oracle : Nat → List String)
    (hperm : ∀ k, (oracle k).Perm [x]) :
    initialize_assignments [x] ex oracle = .error (errMsg 1000) ∧
    ∀ (ex2 : List (String × List String)) (oracle2 : Nat → List String),
      initialize_assignments [] ex2 oracle2 = .ok [] := by
  constructor
  · have hinv : ∀ i, checkValid [x] (oracle i) ex = false := by
      intro i
      rw [List.perm_singleton.mp (hperm i)]
      simp [checkValid]
    exact initLoop_all_invalid [x] ex oracle hinv 1000 0
  · intro ex2 oracle2
    exact initialize_assignments_nil ex2 oracle2

set_option maxRecDepth 100000 in
/-- Witness for the amended C2 at participant list `["x"]` with the
shuffle always producing `["x"]`, and at the empty participant list. -/
theorem initialize_assignments_small_groups_witness :
    initialize_assignments ["x"] [] (fun _ => ["x"]) = .error (errMsg 1000) ∧
    initialize_assignments [] [] (fun _ => ["z"]) = .ok [] := by
  have hp : (["x"] : List String).Perm ["x"] := by decide
  have h := initialize_assignments_small_groups "x" [] (fun _ => ["x"])
    (fun _ => hp)
  exact ⟨h.1, h.2 [] (fun _ => ["z"])⟩

/-- C3: `initialize_assignments` always terminates with its attempt
counter at most 1000, and whenever it raises, the error message is
exactly the one naming the bound of 1000 attempts tried. -/
theorem initialize_assignments_attempt_cap (participants : List String)
    (ex : List (String × List String)) (oracle : Nat → List String) :
    initialize_assignments_attempts participants ex oracle ≤ 1000 ∧
    ∀ e, initialize_assignments participants ex oracle = .error e →
      e = errMsg 1000 := by
  constructor
  · simpa using initLoop_attempt_bound participants ex oracle 1000 0
  · intro e h
    exact initLoop_err_msg participants ex oracle 1000 0 e h

set_option maxRecDepth 100000 in
/-- Witness for C3 at participant list `["y"]` with the shuffle always
producing `["y"]`, an input on which the matcher exhausts its attempts. -/
theorem initialize_assignments_attempt_cap_witness :
    initialize_assignments_attempts ["y"] [] (fun _ => ["y"]) ≤ 1000 ∧
    errMsg 1000 = errMsg 1000 := by
  have h := initialize_assignments_attempt_cap ["y"] [] (fun _ => ["y"])
  exact ⟨h.1, h.2 (errMsg 1000) rfl⟩

/-- C6: for participants `[A, B, C]` with exclusion map `{A: [B]}`, every
mapping `initialize_assignments` can return (each shuffle producing some
permutation of the participants) is exactly the dict
`{A : C, B : A, C : B}`, the unique derangement of three elements in
which A does not give to B. -/
theorem initialize_assignments_abc_unique (oracle : Nat → List String)
    (hperm : ∀ k, (oracle k).Perm ["A", "B", "C"])
    (m : List (String × String))
    (hres : initialize_assignments ["A", "B", "C"] [("A", ["B"])] oracle = .ok m) :
    m = [("A", "C"), ("B", "A"), ("C", "B")] := by
  obtain ⟨i, hc, hm⟩ :=
    initLoop_ok_exists ["A", "B", "C"] [("A", ["B"])] oracle 1000 0 m hres
  have hmem : oracle i ∈ (["A", "B", "C"] : List String).permutations' :=
    List.mem_permutations'.2 (hperm i)
  have key : ∀ r ∈ (["A", "B", "C"] : List String).permutations',
      checkValid ["A", "B", "C"] r [("A", ["B"])] = true →
        dictOfList ((["A", "B", "C"] : List String).zip r) =
          [("A", "C"), ("B", "A"), ("C", "B")] := by decide
  rw [hm]
  exact key (oracle i) hmem hc

/-- Witness for C6 with the shuffle always producing `["C", "A", "B"]`,
on which the matcher succeeds on the first attempt. -/
theorem initialize_assignments_abc_unique_witness :
    ([("A", "C"), ("B", "A"), ("C", "B")] : List (String × String)) =
      [("A", "C"), ("B", "A"), ("C", "B")] :=
 by
  have hp : (["C", "A", "B"] : List String).Perm ["A", "B", "C"] := by decide
  exact initialize_assignments_abc_unique (fun _ => ["C", "A", "B"])
    (fun _ => hp) [("A", "C"), ("B", "A"), ("C", "B")] rfl

theorem alistFind_map_const {γ : Type} (a : List (String × γ)) (k : String) (v : γ) :
    alistFind (a.map fun r => if r.1 = k then (r.1, v) else r) k =
      (alistFind a k).map (fun _ => v) := by
  induction a with
  | nil => rfl
  | cons p rest ih =>
    by_cases hp : p.1 = k
    · simp [alistFind, hp]
    · simp only [List.map_cons, if_neg hp]
      simpa [alistFind, hp] using ih

theorem alistFind_map_push {γ : Type} (a : List (String × γ)) (k : String)
    (f : γ → γ) :
    alistFind (a.map fun p => if p.1 = k then (p.1, f p.2) else p) k =
      (alistFind a k).map f := by
  induction a with
  | nil => rfl
  | cons p rest ih =>
    by_cases hp : p.1 = k
    · simp [alistFind, hp]
    · simp only [List.map_cons, if_neg hp]
      simpa [alistFind, hp] using ih

theorem alistFind_map_frame {γ : Type} (a : List (String × γ)) (k n : String)
    (g : γ → γ) (hne : n ≠ k) :
    alistFind (a.map fun p => if p.1 = k then (p.1, g p.2) else p) n =
      alistFind a n := by
  induction a with
  | nil => rfl
  | cons p rest ih =>
    by_cases hp : p.1 = k
    · have hpn : ¬ p.1 = n := by rw [hp]; exact fun he => hne he.symm
      simp only [List.map_cons, if_pos hp]
      simpa [alistFind, hpn] using ih
    · simp only [List.map_cons, if_neg hp]
      by_cases hq : p.1 = n
      · simp [alistFind, hq]
      · simpa [alistFind, hq] using ih

theorem alistFind_append_single {γ : Type} (a : List (String × γ)) (k : String)
    (v : γ) (h : alistFind a k = none) : alistFind (a ++ [(k, v)]) k = some v := by
  induction a with
  | nil => simp [alistFind]
  | cons p rest ih =>
    by_cases hp : p.1 = k
    · simp [alistFind, hp] at h
    · simp only [alistFind, hp] at h
      simp only [List.cons_append]
      simpa [alistFind, hp] using ih (by simpa [alistFind, hp] using h)

theorem alistFind_append_frame {γ : Type} (a : List (String × γ)) (k n : String)
    (v : γ) (hne : n ≠ k) : alistFind (a ++ [(k, v)]) n = alistFind a n := by
  induction a with
  | nil => simp [alistFind, fun he => hne (he : n = k), Ne.symm hne]
  | cons p rest ih =>
    simp only [List.cons_append]
    by_cases hp : p.1 = n
    · simp [alistFind, hp]
    · simpa [alistFind, hp] using ih

theorem tableGet_insertRec_self (db : DB) (name : String) (rec : String × String) :
    tableGet (tableInsertRec db name rec) name = tableGet db name ++ [rec] := by
  unfold tableInsertRec tableGet
  by_cases h : (alistFind db.assign name).isSome = true
  · simp only [h, if_true]
    rw [show (fun p : String × List (String × String) =>
        if p.1 = name then (p.1, p.2 ++ [rec]) else p) =
        (fun p : String × List (String × String) =>
        if p.1 = name then (p.1, (fun v => v ++ [rec]) p.2) else p) from rfl]
    rw [alistFind_map_push db.assign name (fun v => v ++ [rec])]
    obtain ⟨v, hv⟩ := Option.isSome_iff_exists.mp h
    rw [hv]
    rfl
  · have hnone : alistFind db.assign name = none :=
      Option.not_isSome_iff_eq_none.mp (by simpa using h)
    rw [hnone]
    simp only [Option.isSome_none, Bool.false_eq_true, if_false]
    rw [alistFind_append_single db.assign name [rec] hnone]
    rfl

theorem tableGet_insertRec_frame (db : DB) (name n : String) (rec : String × String)
    (hne : n ≠ name) : tableGet (tableInsertRec db name rec) n = tableGet db n := by
  unfold tableInsertRec tableGet
  by_cases h : (alistFind db.assign name).isSome = true
  · simp only [h, if_true]
    rw [show (fun p : String × List (String × String) =>
        if p.1 = name then (p.1, p.2 ++ [rec]) else p) =
        (fun p : String × List (String × String) =>
        if p.1 = name then (p.1, (fun v => v ++ [rec]) p.2) else p) from rfl]
    rw [alistFind_map_frame db.assign name n (fun v => v ++ [rec]) hne]
  · have hnone : alistFind db.assign name = none :=
      Option.not_isSome_iff_eq_none.mp (by simpa using h)
    rw [hnone]
    simp only [Option.isSome_none, Bool.false_eq_true, if_false]
    rw [alistFind_append_frame db.assign name n [rec] hne]

theorem tableInsertRec_wishes (db : DB) (name : String) (rec : String × String) :
    (tableInsertRec db name rec).wishes = db.wishes := by
  unfold tableInsertRec
  by_cases h : (alistFind db.assign name).isSome = true <;> simp [h]

theorem tableGet_insertAll_self (m : List (String × String)) :
    ∀ (db : DB) (name : String),
      tableGet (m.foldl (fun d rec => tableInsertRec d name rec) db) name =
        tableGet db name ++ m := by
  induction m with
  | nil => intro db name; simp
  | cons r rest ih =>
    intro db name
    show tableGet (rest.foldl (fun d rec => tableInsertRec d name rec)
      (tableInsertRec db name r)) name = tableGet db name ++ r :: rest
    rw [ih (tableInsertRec db name r) name, tableGet_insertRec_self]
    simp

theorem tableGet_insertAll_frame (m : List (String × String)) :
    ∀ (db : DB) (name n : String), n ≠ name →
      tableGet (m.foldl (fun d rec => tableInsertRec d name rec) db) n =
        tableGet db n := by
  induction m with
  | nil => intro db name n _; rfl
  | cons r rest ih =>
    intro db name n hne
    show tableGet (rest.foldl (fun d rec => tableInsertRec d name rec)
      (tableInsertRec db name r)) n = tableGet db n
    rw [ih (tableInsertRec db name r) name n hne, tableGet_insertRec_frame db name n r hne]

theorem insertAll_wishes (m : List (String × String)) :
    ∀ (db : DB) (name : String),
      (m.foldl (fun d rec => tableInsertRec d name rec) db).wishes = db.wishes := by
  induction m with
  | nil => intro db name; rfl
  | cons r rest ih =>
    intro db name
    show (rest.foldl (fun d rec => tableInsertRec d name rec)
      (tableInsertRec db name r)).wishes = db.wishes
    rw [ih (tableInsertRec db name r) name, tableInsertRec_wishes]

/-- C4: for every family whose assignments table already contains
records, `get_or_create_assignments` returns the mapping built from
exactly those stored records and leaves the store untouched, whatever the
current participant list of the family is (the family argument is
arbitrary here and its participants are never consulted); in particular
the matching process never overwrites records that already exist. -/
theorem get_or_create_assignments_reads_existing
    (fam : Family) (oracle : Nat → List String) (db : DB)
    (recs : List (String × String))
    (h : tableGet db (tableName fam.id) = recs) (hne : recs ≠ []) :
    get_or_create_assignments fam oracle db = (.ok (dictOfList recs), db) := by
  have hie : recs.isEmpty = false := by
    cases recs with
    | nil => exact absurd rfl hne
    | cons a t => rfl
  unfold get_or_create_assignments
  simp only [h, hie, Bool.false_eq_true, if_false]

/-- Witness for C4: a family whose stored table has one record, with an
empty participant list, showing the stored mapping is returned unchanged
and the store is untouched. -/
theorem get_or_create_assignments_reads_existing_witness :
    get_or_create_assignments ⟨"f", []⟩ (fun _ => [])
        ⟨[("assignments_f", [("a", "b")])], []⟩ =
      (.ok (dictOfList [("a", "b")]), ⟨[("assignments_f", [("a", "b")])], []⟩) :=
  get_or_create_assignments_reads_existing ⟨"f", []⟩ (fun _ => [])
    ⟨[("assignments_f", [("a", "b")])], []⟩ [("a", "b")] rfl (by decide)

/-- C9: saving a wish list for a user and reading it back returns exactly
the saved items, in order, whether or not a record for that user already
existed; and a user with no record reads back the empty list. -/
theorem save_wish_list_round_trip (username : String) (items : List String)
    (db : DB) :
    get_wish_list username (save_wish_list username items db) = items ∧
    (alistFind db.wishes username = none → get_wish_list username db = []) := by
  constructor
  · unfold save_wish_list get_wish_list
    by_cases h : (alistFind db.wishes username).isSome = true
    · simp only [h, if_true]
      rw [show (fun r : String × List String =>
          if r.1 = username then (r.1, items) else r) =
          (fun r : String × List String =>
          if r.1 = username then (r.1, items) else r) from rfl]
      rw [alistFind_map_const db.wishes username items]
      obtain ⟨v, hv⟩ := Option.isSome_iff_exists.mp h
      rw [hv]
      rfl
    · have hnone : alistFind db.wishes username = none :=
        Option.not_isSome_iff_eq_none.mp (by simpa using h)
      rw [hnone]
      simp only [Option.isSome_none, Bool.false_eq_true, if_false]
      rw [alistFind_append_single db.wishes username items hnone]
      rfl
  · intro h
    unfold get_wish_list
    rw [h]
    rfl

/-- Witness for C9: overwriting an existing record round-trips, and a
user with no record reads back the empty list. -/
theorem save_wish_list_round_trip_witness :
    get_wish_list "u" (save_wish_list "u" ["a", "b"] ⟨[], [("u", ["old"])]⟩) =
      ["a", "b"] ∧
    get_wish_list "v" ⟨[], []⟩ = [] := by
  have h1 := save_wish_list_round_trip "u" ["a", "b"] ⟨[], [("u", ["old"])]⟩
  have h2 := save_wish_list_round_trip "v" [] ⟨[], []⟩
  exact ⟨h1.1, h2.2 rfl⟩

/-- C5: starting from any store in which `get_or_create_assignments`
succeeds (shuffles producing permutations of the usernames), calling it
again on the same family returns the identical giver-receiver mapping and
leaves the store exactly as the first call left it: the second call is a
pure read. -/
theorem get_or_create_assignments_idempotent
    (fam : Family) (oracle oracle2 : Nat → List String) (db db1 : DB)
    (m : List (String × String))
    (hperm : ∀ k, (oracle k).Perm (fam.participants.map (fun p => p.username)))
    (h1 : get_or_create_assignments fam oracle db = (.ok m, db1)) :
    get_or_create_assignments fam oracle2 db1 = (.ok m, db1) := by
  by_cases he : (tableGet db (tableName fam.id)).isEmpty = true
  · unfold get_or_create_assignments at h1
    simp only [he, if_true] at h1
    cases hres : initialize_assignments (fam.participants.map fun p => p.username)
        (buildExclusions fam.participants) oracle with
    | error e =>
      rw [hres] at h1
      have := congrArg Prod.fst h1
      simp at this
    | ok a =>
      rw [hres] at h1
      have ha : a = m := by
        have := congrArg Prod.fst h1
        simpa using this
      subst ha
      have hdb : a.foldl (fun d rec => tableInsertRec d (tableName fam.id) rec) db
          = db1 := congrArg Prod.snd h1
      have hdbe : tableGet db (tableName fam.id) = [] := by
        cases hg : tableGet db (tableName fam.id) with
        | nil => rfl
        | cons x t => rw [hg] at he; simp at he
      have hres2 : (initLoop (fam.participants.map fun p => p.username)
          (buildExclusions fam.participants) oracle 1000 0).1 = Except.ok a := hres
      obtain ⟨i, hc, hmz⟩ := initLoop_ok_exists
        (fam.participants.map fun p => p.username)
        (buildExclusions fam.participants) oracle 1000 0 a hres2
      by_cases hm : a = []
      · have hus : fam.participants.map (fun p => p.username) = [] := by
          cases hu : fam.participants.map (fun p => p.username) with
          | nil => rfl
          | cons u t =>
            have hp := hperm i
            rw [hu] at hp
            cases hr : oracle i with
            | nil =>
              rw [hr] at hp
              simpa using hp.length_eq
            | cons r rs =>
              rw [hu, hr] at hmz
              rw [hm] at hmz
              exact absurd hmz.symm (dictOfList_ne_nil _ (by simp))
        subst hm
        have hdb2 : db1 = db := by rw [← hdb]; rfl
        subst hdb2
        unfold get_or_create_assignments
        simp only [he, if_true, hus]
        rw [initialize_assignments_nil]
        rfl
      · have h2 : tableGet db1 (tableName fam.id) = a := by
          rw [← hdb, tableGet_insertAll_self a db (tableName fam.id), hdbe]
          rfl
        have haie : a.isEmpty = false := by
          cases a with
          | nil => exact absurd rfl hm
          | cons x t => rfl
        have hda : dictOfList a = a := by
          rw [hmz]
          exact dictOfList_eq_self _ (dictOfList_keys_nodup _)
        unfold get_or_create_assignments
        simp only [h2, haie, Bool.false_eq_true, if_false, hda]
  · have hne : tableGet db (tableName fam.id) ≠ [] := by
      intro hh
      rw [hh] at he
      exact he rfl
    have hie : (tableGet db (tableName fam.id)).isEmpty = false := by
      cases hg : tableGet db (tableName fam.id) with
      | nil => exact absurd hg hne
      | cons x t => rfl
    unfold get_or_create_assignments at h1
    simp only [hie, Bool.false_eq_true, if_false] at h1
    have hdb : db = db1 := congrArg Prod.snd h1
    have hm : dictOfList (tableGet db (tableName fam.id)) = m := by
      have := congrArg Prod.fst h1
      simpa using this
    subst hdb
    unfold get_or_create_assignments
    simp only [hie, Bool.false_eq_true, if_false, hm]

/-- Witness for C5: a two-person family and an empty store; the first
call creates and persists the two-cycle, the second call returns it
unchanged with no store effect. -/
theorem get_or_create_assignments_idempotent_witness :
    get_or_create_assignments ⟨"f", [⟨"A", []⟩, ⟨"B", []⟩]⟩ (fun _ => [])
        ⟨[("assignments_f", [("A", "B"), ("B", "A")])], []⟩ =
      (.ok [("A", "B"), ("B", "A")],
        ⟨[("assignments_f", [("A", "B"), ("B", "A")])], []⟩) := by
  have hp : ∀ k : Nat, ((fun _ => ["B", "A"]) k : List String).Perm
      ((⟨"f", [⟨"A", []⟩, ⟨"B", []⟩]⟩ : Family).participants.map
        (fun p => p.username)) := by
    intro k
    show (["B", "A"] : List String).Perm ["A", "B"]
    decide
  exact get_or_create_assignments_idempotent ⟨"f", [⟨"A", []⟩, ⟨"B", []⟩]⟩
    (fun _ => ["B", "A"]) (fun _ => []) ⟨[], []⟩
    ⟨[("assignments_f", [("A", "B"), ("B", "A")])], []⟩
    [("A", "B"), ("B", "A")] hp rfl

theorem get_or_create_error_frame (fam : Family) (oracle : Nat → List String)
    (db : DB) (e : String)
    (h : (get_or_create_assignments fam oracle db).1 = .error e) :
    (get_or_create_assignments fam oracle db).2 = db := by
  unfold get_or_create_assignments at h ⊢
  by_cases he : (tableGet db (tableName fam.id)).isEmpty = true
  · simp only [he, if_true] at h ⊢
    cases hres : initialize_assignments (fam.participants.map fun p => p.username)
        (buildExclusions fam.participants) oracle with
    | error e2 => rfl
    | ok a =>
      rw [hres] at h
      simp at h
  · have hie : (tableGet db (tableName fam.id)).isEmpty = false := by
      cases hg : tableGet db (tableName fam.id) with
      | nil => rw [hg] at he; exact absurd rfl he
      | cons x t => rfl
    simp only [hie, Bool.false_eq_true, if_false] at h
    simp at h

theorem init_families_loop_cons (oracles : String → Nat → List String)
    (f : Family) (fams : List Family) (db : DB) :
    init_families_loop oracles (f :: fams) db =
      init_families_loop oracles fams
        ((get_or_create_assignments f (oracles f.id) db).2) := rfl

theorem init_families_loop_append (oracles : String → Nat → List String)
    (l1 l2 : List Family) (db : DB) :
    init_families_loop oracles (l1 ++ l2) db =
      init_families_loop oracles l2 (init_families_loop oracles l1 db) := by
  unfold init_families_loop
  exact List.foldl_append _ _ _ _

/-- C8: during startup initialization, a failure while initializing one
family does not prevent the remaining configured families from being
processed: the loop over `fams1 ++ f :: fams2` produces exactly the store
that processing `fams1` and then `fams2` alone would, and the failing
family leaves the store it saw untouched (no partial writes, no
assignment created for it). -/
theorem init_families_loop_error_isolated
    (oracles : String → Nat → List String) (fams1 fams2 : List Family)
    (f : Family) (db : DB) (e : String)
    (hf : (get_or_create_assignments f (oracles f.id)
        (init_families_loop oracles fams1 db)).1 = .error e) :
    init_families_loop oracles (fams1 ++ f :: fams2) db =
      init_families_loop oracles fams2 (init_families_loop oracles fams1 db) ∧
    (get_or_create_assignments f (oracles f.id)
        (init_families_loop oracles fams1 db)).2 =
      init_families_loop oracles fams1 db := by
  have hframe := get_or_create_error_frame f (oracles f.id)
    (init_families_loop oracles fams1 db) e hf
  refine ⟨?_, hframe⟩
  rw [init_families_loop_append, init_families_loop_cons, hframe]

set_option maxRecDepth 100000 in
/-- Witness for C8: a one-person family whose matching always fails,
followed by a two-person family that still gets initialized. -/
theorem init_families_loop_error_isolated_witness :
    init_families_loop (fun _ _ => ["x"])
        ([] ++ (⟨"bad", [⟨"x", []⟩]⟩ : Family) :: [⟨"g", [⟨"A", []⟩, ⟨"B", []⟩]⟩])
        ⟨[], []⟩ =
      init_families_loop (fun _ _ => ["x"]) [⟨"g", [⟨"A", []⟩, ⟨"B", []⟩]⟩]
        (init_families_loop (fun _ _ => ["x"]) [] ⟨[], []⟩) ∧
    (get_or_create_assignments ⟨"bad", [⟨"x", []⟩]⟩ ((fun _ _ => ["x"]) "bad")
        (init_families_loop (fun _ _ => ["x"]) [] ⟨[], []⟩)).2 =
      init_families_loop (fun _ _ => ["x"]) [] ⟨[], []⟩ :=
  init_families_loop_error_isolated (fun _ _ => ["x"]) []
    [⟨"g", [⟨"A", []⟩, ⟨"B", []⟩]⟩] ⟨"bad", [⟨"x", []⟩]⟩ ⟨[], []⟩
    (errMsg 1000) rfl

theorem str_append_data (a b : String) : (a ++ b).data = a.data ++ b.data := rfl

theorem tableName_inj (a b : String) (h : tableName a = tableName b) : a = b := by
  unfold tableName at h
  have hd := congrArg String.data h
  rw [str_append_data, str_append_data] at hd
  have hab := List.append_cancel_left hd
  cases a with
  | mk da =>
    cases b with
    | mk db2 => exact congrArg String.mk hab

theorem alistFind_filter_ne {γ : Type} (a : List (String × γ)) (n : String) :
    ∀ k, alistFind (a.filter fun p => p.1 ≠ n) k =
      if k = n then none else alistFind a k := by
  induction a with
  | nil =>
    intro k
    by_cases hk : k = n <;> simp [alistFind, hk]
  | cons p rest ih =>
    intro k
    by_cases hp : p.1 = n
    · rw [List.filter_cons_of_neg (by simp [hp])]
      rw [ih k]
      by_cases hk : k = n
      · rw [if_pos hk, if_pos hk]
      · rw [if_neg hk, if_neg hk]
        have hpk : ¬ p.1 = k := by rw [hp]; exact fun he => hk he.symm
        simp [alistFind, hpk]
    · rw [List.filter_cons_of_pos (by simp [hp])]
      by_cases hq : p.1 = k
      · have hk : ¬ k = n := by rw [← hq]; exact hp
        rw [if_neg hk]
        simp [alistFind, hq]
      · have h2 := ih k
        by_cases hk : k = n
        · rw [if_pos hk]
          rw [if_pos hk] at h2
          simpa [alistFind, hq] using h2
        · rw [if_neg hk]
          rw [if_neg hk] at h2
          simpa [alistFind, hq] using h2

theorem dropTables_alistFind (rs : List String) :
    ∀ (db : DB) (k : String),
      alistFind ((rs.foldl (fun d i => dropTable d (tableName i)) db).assign) k =
        if (rs.map tableName).contains k then none else alistFind db.assign k := by
  induction rs with
  | nil => intro db k; simp
  | cons r rest ih =>
    intro db k
    show alistFind ((rest.foldl (fun d i => dropTable d (tableName i))
      (dropTable db (tableName r))).assign) k = _
    rw [ih (dropTable db (tableName r)) k]
    by_cases hc : (rest.map tableName).contains k = true
    · have hc2 : ((r :: rest).map tableName).contains k = true := by
        simp only [List.map_cons, List.contains_cons, hc, Bool.or_true]
      rw [if_pos hc, if_pos hc2]
    · by_cases hk : k = tableName r
      · have hc2 : ((r :: rest).map tableName).contains k = true := by
          simp [List.contains_cons, hk]
        rw [if_neg hc, if_pos hc2]
        show alistFind (db.assign.filter fun p => p.1 ≠ tableName r) k = none
        rw [alistFind_filter_ne db.assign (tableName r) k, if_pos hk]
      · have hb : (k == tableName r) = false := beq_eq_false_iff_ne.mpr hk
        have hcf : (rest.map tableName).contains k = false := by
          cases hx : (rest.map tableName).contains k with
          | true => exact absurd hx hc
          | false => rfl
        have hc2 : ((r :: rest).map tableName).contains k = false := by
          simp only [List.map_cons, List.contains_cons, hb, hcf, Bool.or_self]
        have hc3 : ¬ ((r :: rest).map tableName).contains k = true := by
          intro hx
          rw [hc2] at hx
          exact Bool.false_ne_true hx
        rw [if_neg hc, if_neg hc3]
        show alistFind (db.assign.filter fun p => p.1 ≠ tableName r) k = _
        rw [alistFind_filter_ne db.assign (tableName r) k, if_neg hk]

theorem dropTables_wishes (rs : List String) :
    ∀ db : DB, (rs.foldl (fun d i => dropTable d (tableName i)) db).wishes =
      db.wishes := by
  induction rs with
  | nil => intro db; rfl
  | cons r rest ih =>
    intro db
    show (rest.foldl (fun d i => dropTable d (tableName i))
      (dropTable db (tableName r))).wishes = db.wishes
    rw [ih (dropTable db (tableName r))]
    rfl

theorem dropTables_sub (rs : List String) :
    ∀ (db : DB) (p : String × List (String × String)),
      p ∈ (rs.foldl (fun d i => dropTable d (tableName i)) db).assign →
        p ∈ db.assign := by
  induction rs with
  | nil => intro db p hp; exact hp
  | cons r rest ih =>
    intro db p hp
    have := ih (dropTable db (tableName r)) p hp
    exact List.mem_of_mem_filter this

/-- C7 counterexample: a persisted table named
`assignments_assignments_x` is the assignment collection of the persisted
group id `assignments_x`.  With no configured groups that id should be
removed, but `t.replace("assignments_", "")` strips both occurrences of
the substring and yields the id `x`, so the code drops the (absent) table
`assignments_x` and the stale collection survives reconciliation. -/
theorem reconcile_families_counterexample :
    tableName "assignments_x" = "assignments_assignments_x" ∧
    alistFind (reconcile_families []
        ⟨[("assignments_assignments_x", [("a", "b")])], []⟩).assign
      (tableName "assignments_x") = some [("a", "b")] := by
  constructor
  · rfl
  · rfl

/-- C7 amended: provided every persisted assignment table name is
`"assignments_" ++ id` for an id that the replace-all strip recovers
exactly (true whenever no group id itself contains the substring
`"assignments_"`), reconciliation deletes exactly the assignment
collections whose group ids are not configured: the collection of a
configured id is returned unchanged, the collection of any other id is
gone, nothing is added to the assignment tables, and the wish-list
collection is completely untouched. -/
theorem reconcile_families_exact (configIds : List String) (db : DB)
    (hkeys : ∀ p ∈ db.assign, ∃ i, p.1 = tableName i ∧
      pyStartsWith p.1 "assignments_" = true ∧
      pyReplace p.1 "assignments_" "" = i) :
    (∀ i, alistFind (reconcile_families configIds db).assign (tableName i) =
      if configIds.contains i then alistFind db.assign (tableName i) else none) ∧
    (∀ p ∈ (reconcile_families configIds db).assign, p ∈ db.assign) ∧
    (reconcile_families configIds db).wishes = db.wishes := by
  refine ⟨?_, ?_, ?_⟩
  · intro i
    show alistFind (((staleFamilyIds configIds db).foldl
      (fun d i => dropTable d (tableName i)) db).assign) (tableName i) = _
    rw [dropTables_alistFind (staleFamilyIds configIds db) db (tableName i)]
    by_cases hm : ((staleFamilyIds configIds db).map tableName).contains
        (tableName i) = true
    · rw [if_pos hm]
      have hmem : tableName i ∈ (staleFamilyIds configIds db).map tableName :=
        List.mem_of_elem_eq_true hm
      obtain ⟨j, hj, hje⟩ := List.mem_map.1 hmem
      have hji : j = i := tableName_inj j i hje
      subst hji
      have hns := (List.mem_filter.1 hj).2
      have hcf : configIds.contains j = false := by
        cases hx : configIds.contains j with
        | false => rfl
        | true => rw [hx] at hns; exact absurd hns (by decide)
      rw [if_neg (by rw [hcf]; exact Bool.false_ne_true)]
    · rw [if_neg hm]
      by_cases hcfg : configIds.contains i = true
      · rw [if_pos hcfg]
      · rw [if_neg hcfg]
        cases hfind : alistFind db.assign (tableName i) with
        | none => rfl
        | some v =>
          exfalso
          unfold alistFind at hfind
          cases hf2 : db.assign.find? (fun p => p.1 = tableName i) with
          | none => rw [hf2] at hfind; simp at hfind
          | some p =>
            have hpmem : p ∈ db.assign := List.mem_of_find?_eq_some hf2
            have hpkey : p.1 = tableName i := by
              have := List.find?_some hf2
              simpa using this
            obtain ⟨i0, hpn, hsw, hrep⟩ := hkeys p hpmem
            have hii : i0 = i := tableName_inj i0 i (by rw [← hpn, hpkey])
            subst hii
            have m1 : p.1 ∈ db.assign.map (fun p => p.1) :=
              List.mem_map_of_mem _ hpmem
            have m2 : p.1 ∈ (db.assign.map (fun p => p.1)).filter
                (fun t => pyStartsWith t "assignments_") :=
              List.mem_filter.2 ⟨m1, by rw [hsw]⟩
            have m3 : i0 ∈ ((db.assign.map (fun p => p.1)).filter
                (fun t => pyStartsWith t "assignments_")).map
                (fun t => pyReplace t "assignments_" "") := by
              rw [← hrep]
              exact List.mem_map_of_mem _ m2
            have hcf : configIds.contains i0 = false := by
              cases hx : configIds.contains i0 with
              | false => rfl
              | true => exact absurd hx hcfg
            have m4 : i0 ∈ staleFamilyIds configIds db :=
              List.mem_filter.2 ⟨m3, by rw [hcf]; rfl⟩
            have m5 : tableName i0 ∈ (staleFamilyIds configIds db).map tableName :=
              List.mem_map_of_mem _ m4
            exact hm (List.elem_eq_true_of_mem m5)
  · intro p hp
    exact dropTables_sub (staleFamilyIds configIds db) db p hp
  · exact dropTables_wishes (staleFamilyIds configIds db) db

/-- Witness for the amended C7: two persisted families, one configured;
reconciliation keeps the configured collection unchanged, deletes the
stale one, and leaves the wishes untouched. -/
theorem reconcile_families_exact_witness :
    alistFind (reconcile_families ["famA"]
        ⟨[("assignments_famA", [("a", "b")]), ("assignments_famB", [("c", "d")])],
          [("u", ["w"])]⟩).assign (tableName "famA") = some [("a", "b")] ∧
    alistFind (reconcile_families ["famA"]
        ⟨[("assignments_famA", [("a", "b")]), ("assignments_famB", [("c", "d")])],
          [("u", ["w"])]⟩).assign (tableName "famB") = none ∧
    (reconcile_families ["famA"]
        ⟨[("assignments_famA", [("a", "b")]), ("assignments_famB", [("c", "d")])],
          [("u", ["w"])]⟩).wishes = [("u", ["w"])] := by
  have hkeys : ∀ p ∈ (⟨[("assignments_famA", [("a", "b")]),
      ("assignments_famB", [("c", "d")])], [("u", ["w"])]⟩ : DB).assign,
      ∃ i, p.1 = tableName i ∧ pyStartsWith p.1 "assignments_" = true ∧
        pyReplace p.1 "assignments_" "" = i := by
    intro p hp
    simp only [List.mem_cons, List.not_mem_nil, or_false] at hp
    rcases hp with rfl | rfl
    · exact ⟨"famA", rfl, rfl, rfl⟩
    · exact ⟨"famB", rfl, rfl, rfl⟩
  have h := reconcile_families_exact ["famA"]
    ⟨[("assignments_famA", [("a", "b")]), ("assignments_famB", [("c", "d")])],
      [("u", ["w"])]⟩ hkeys
  refine ⟨?_, ?_, ?_⟩
  · rw [h.1 "famA"]
    rfl
  · rw [h.1 "famB"]
    rfl
  · rw [h.2.2]

theorem heapGet_set_ne (h : Heap) (r n : Nat) (v : List String) (hne : n ≠ r) :
    heapGet (heapSet h r v) n = heapGet h n := by
  induction h with
  | nil => rfl
  | cons p rest ih =>
    by_cases hp : p.1 = r
    · have hpn : ¬ p.1 = n := by rw [hp]; exact fun he => hne he.symm
      simp only [heapSet, List.map_cons, if_pos hp]
      simpa [heapGet, heapSet, hpn] using ih
    · simp only [heapSet, List.map_cons, if_neg hp]
      by_cases hq : p.1 = n
      · simp [heapGet, hq]
      · simpa [heapGet, heapSet, hq] using ih

theorem initLoopHeap_frame (gRef rRef : Nat) (ex : List (String × List String))
    (oracle : Nat → List String → List String) :
    ∀ (fuel k : Nat) (h : Heap) (n : Nat), n ≠ rRef →
      heapGet (initLoopHeap gRef rRef ex oracle fuel k h).2 n = heapGet h n := by
  intro fuel
  induction fuel with
  | zero => intro k h n _; rfl
  | succ m ih =>
    intro k h n hne
    rw [initLoopHeap]
    by_cases hc : checkValid (heapGet (heapSet h rRef (oracle k (heapGet h rRef))) gRef)
        (heapGet (heapSet h rRef (oracle k (heapGet h rRef))) rRef) ex = true
    · simp only [hc, if_true]
      exact heapGet_set_ne h rRef n (oracle k (heapGet h rRef)) hne
    · simp only [hc, Bool.false_eq_true, if_false]
      rw [ih (k + 1) (heapSet h rRef (oracle k (heapGet h rRef))) n hne]
      exact heapGet_set_ne h rRef n (oracle k (heapGet h rRef)) hne

theorem heapGet_append_of_mem (h : Heap) (n : Nat)
    (hm : n ∈ h.map (fun p => p.1)) (l : Heap) :
    heapGet (h ++ l) n = heapGet h n := by
  induction h with
  | nil => simp at hm
  | cons p rest ih =>
    by_cases hp : p.1 = n
    · simp [heapGet, hp]
    · have hm2 : n ∈ rest.map (fun p => p.1) := by
        simp only [List.map_cons, List.mem_cons] at hm
        rcases hm with he | he
        · exact absurd he.symm hp
        · exact he
      simpa [heapGet, hp] using ih hm2

theorem mem_le_foldr_max (l : List Nat) (n : Nat) (hm : n ∈ l) :
    n ≤ l.foldr max 0 := by
  induction l with
  | nil => simp at hm
  | cons a t ih =>
    rcases List.mem_cons.1 hm with he | he
    · rw [he]
      exact le_max_left a (t.foldr max 0)
    · exact le_trans (ih he) (le_max_right a (t.foldr max 0))

theorem mem_ne_heapFresh (h : Heap) (n : Nat) (hm : n ∈ h.map (fun p => p.1)) :
    n ≠ heapFresh h := by
  have := mem_le_foldr_max (h.map (fun p => p.1)) n hm
  unfold heapFresh
  omega

/-- C10: `initialize_assignments` never mutates the participants list of
its caller: at the heap level, whether it returns a mapping or raises,
the list object the caller passed holds the same elements in the same
order afterwards, because the function only shuffles its own copies
(src/app.py lines 129-139). -/
theorem initialize_assignments_heap_no_mutation (pRef : Nat)
    (ex : List (String × List String))
    (oracle : Nat → List String → List String) (h : Heap)
    (hmem : pRef ∈ h.map (fun p => p.1)) :
    heapGet (initialize_assignments_heap pRef ex oracle h).2 pRef =
      heapGet h pRef := by
  unfold initialize_assignments_heap heapAlloc
  have hmem1 : pRef ∈ (h ++ [(heapFresh h, heapGet h pRef)]).map (fun p => p.1) := by
    rw [List.map_append]
    exact List.mem_append_left _ hmem
  have hner : pRef ≠ heapFresh (h ++ [(heapFresh h, heapGet h pRef)]) :=
    mem_ne_heapFresh _ pRef hmem1
  rw [initLoopHeap_frame _ _ ex oracle 1000 0 _ pRef hner]
  rw [heapGet_append_of_mem _ pRef hmem1]
  rw [heapGet_append_of_mem h pRef hmem]

/-- Witness for C10 at a heap with a single two-element participants
list, the shuffle reversing the receivers. -/
theorem initialize_assignments_heap_no_mutation_witness :
    heapGet (initialize_assignments_heap 1 [] (fun _ l => l.reverse)
      [(1, ["A", "B"])]).2 1 = heapGet [(1, ["A", "B"])] 1 :=
  initialize_assignments_heap_no_mutation 1 [] (fun _ l => l.reverse)
    [(1, ["A", "B"])] (by decide)
